import Mathlib

/-!
Shallow embedding of `src/solve.rs` (crossword-waystations): a grid/path
search engine that fits words onto a character grid along 4-adjacent paths
between fixed anchor letters, enumerating all consistent placements.

Machine integers (`int`) are modelled by `Int`; vectors by `List`; `&str`
word identities by `String`; suffix slices by `List Char` (the inputs are
ASCII, so byte and char indexing coincide).  A panicking vector access is
modelled by `Option` (`none` = no value); side-effecting prints are dropped.
-/

namespace Waystations

/-- Cell state, from `enum TileData` in `solve.rs`. -/
inductive TileData where
  | Fixed : Char → TileData
  | NoWords : TileData
  | OneWord : Char → String → TileData
  | TwoWords : Char → String → String → TileData
deriving DecidableEq, Repr

/-- Integer grid coordinate, from `struct Point`. -/
structure Point where
  x : Int
  y : Int
deriving DecidableEq, Repr

/-- Generic rectangular container, from `struct Grid<T>`. -/
structure Grid (T : Type) where
  width : Int
  height : Int
  tiles : List T
deriving DecidableEq, Repr

/-- `Point::offset`: note the source SUBTRACTS the arguments. -/
def Point.offset (p : Point) (dx dy : Int) : Point :=
  { x := p.x - dx, y := p.y - dy }

/-- `Point::dist`: Manhattan distance as a (nonnegative) `Int`. -/
def Point.dist (p other : Point) : Int :=
  ((other.x - p.x).natAbs : Int) + ((other.y - p.y).natAbs : Int)

namespace Grid

variable {T : Type}

/-- `Grid::is_valid`. -/
def is_valid (g : Grid T) (p : Point) : Bool :=
  if p.x < 0 || p.x ≥ g.width then false
  else if p.y < 0 || p.y ≥ g.height then false
  else true

/-- The backing-vector index used by `Grid::set` / `Grid::get_ref`:
the source computes `self.height * p.y + p.x` (height, not width). -/
def index (g : Grid T) (p : Point) : Nat :=
  (g.height * p.y + p.x).toNat

/-- `Grid::set`: in-place store, modelled functionally.  An out-of-range
store panics in the source; `List.set` is then a no-op, but every call
site first observes `get_ref = some _`, making that case unreachable. -/
def set (g : Grid T) (p : Point) (data : T) : Grid T :=
  { g with tiles := g.tiles.set (g.index p) data }

/-- `Grid::get_ref`: bounds-checked read; `none` models both the invalid
point and the (unreachable after `is_valid`) out-of-range panic. -/
def get_ref (g : Grid T) (p : Point) : Option T :=
  if g.is_valid p then g.tiles[g.index p]? else none

/-- `Grid::map`. -/
def map {U : Type} (g : Grid T) (f : T → U) : Grid U :=
  { width := g.width, height := g.height, tiles := g.tiles.map f }

/-- `Grid::replace`: clone with one cell changed (the source asserts
`is_valid p` and then mutates the clone). -/
def replace (g : Grid T) (p : Point) (data : T) : Grid T :=
  g.set p data

end Grid

/-- `Grid::neighbors`: the four offsets in source order, keeping valid
ones.  With `offset` subtracting, the candidate order is
east `(x+1,y)`, west `(x-1,y)`, south `(x,y+1)`, north `(x,y-1)`. -/
def Grid.neighbors (g : Grid TileData) (p : Point) : List Point :=
  [p.offset (-1) 0, p.offset 1 0, p.offset 0 (-1), p.offset 0 1].filter
    fun q => g.is_valid q

/-- `default_char`: the renderer's per-cell projection. -/
def default_char : TileData → Char
  | .Fixed c => c.toUpper
  | .OneWord c _ => c.toLower
  | .TwoWords c _ _ => c.toLower
  | .NoWords => ' '

/-- The cell-wise fold inside `flatten`: agreement keeps the character,
disagreement blanks it (`zip` truncates to the shorter list). -/
def mergeChars (a b : List Char) : List Char :=
  (a.zip b).map fun ab => if ab.1 = ab.2 then ab.1 else ' '

/-- `FlattenCrossword::flatten` on a candidate list; the source's
`iter.next().unwrap()` panic on an empty list is modelled by `none`. -/
def flatten (gs : List (Grid TileData)) : Option (Grid Char) :=
  match gs with
  | [] => none
  | g :: rest =>
      let first := g.tiles.map default_char
      let folded := rest.foldl (fun accum x => mergeChars accum (x.tiles.map default_char)) first
      some { width := g.width, height := g.height, tiles := folded }

/-- `readgrid`, modelled on the already-read list of lines: width is the
longest line, height the number of lines, and the tiles are the LINES
CONCATENATED (no padding), lowercased, blank ↦ `NoWords`, else `Fixed`.
`none` models the `max().unwrap()` panic on an empty file. -/
def readgrid (lines : List String) : Option (Grid TileData) :=
  match (lines.map String.length).max? with
  | none => none
  | some longest =>
      let full := String.join lines
      let downcase := full.toList.map Char.toLower
      let tiles := downcase.map fun c => if c = ' ' then TileData.NoWords else TileData.Fixed c
      some { width := (longest : Int), height := (lines.length : Int), tiles := tiles }

mutual

/-- `allpaths`: one step of the recursive path enumeration.  Note the
source's match has NO arm for `Fixed`: it falls into the catch-all and
the branch dies. -/
def allpaths (grid : Grid TileData) (word : String) (start dest : Point)
    (s : List Char) (accum : List (Grid TileData)) : List (Grid TileData) :=
  if start = dest ∧ (s.length : Int) - 1 = 0 then
    accum ++ [grid]
  else if start.dist dest > (s.length : Int) - 1 then
    accum
  else
    match grid.get_ref start with
    | some (.OneWord c w) =>
        if c = s.headD ' ' ∧ w ≠ word then
          allpaths2 (grid.replace start (.TwoWords c w word)) word start dest s accum
        else accum
    | some TileData.NoWords =>
        allpaths2 (grid.replace start (.OneWord (s.headD ' ') word)) word start dest s accum
    | _ => accum
termination_by (s.length, 2, 0)

/-- `allpaths2`: drop the first character of the suffix and recurse into
every valid neighbor (the empty-suffix case would panic in the source and
is unreachable from `allpaths`; it returns `accum`). -/
def allpaths2 (grid : Grid TileData) (word : String) (start dest : Point)
    (s : List Char) (accum : List (Grid TileData)) : List (Grid TileData) :=
  match s with
  | [] => accum
  | _ :: tail => allpathsOver grid word (grid.neighbors start) dest tail accum
termination_by (s.length, 1, 0)

/-- The `for` loop over neighbors inside `allpaths2`, threading `accum`. -/
def allpathsOver (grid : Grid TileData) (word : String) (ps : List Point)
    (dest : Point) (s : List Char) (accum : List (Grid TileData)) : List (Grid TileData) :=
  match ps with
  | [] => accum
  | p :: rest => allpathsOver grid word rest dest s (allpaths grid word p dest s accum)
termination_by (s.length, 3, ps.length)

end

/-- `add_word`: the word-insertion pipeline.  On a word with zero
placements it returns the PREVIOUS candidate set immediately (the
remaining words are not processed). -/
def add_word (accum : List (Grid TileData)) (wordpt : List (String × Point × Point)) :
    List (Grid TileData) :=
  match wordpt with
  | [] => accum
  | (word, start, dest) :: rest =>
      let out := accum.foldl (fun o g => allpaths2 g word start dest word.toList o) []
      if out.length > 0 then add_word out rest else accum

/-!
## Fuel-indexed mirror of the enumerator

`allpathsF fuel` runs `allpaths` but refuses to descend more than `fuel`
levels (one level per character of the remaining suffix).  It is
structurally recursive, hence kernel-computable; the equivalence theorems
below show `fuel = suffix length` always suffices, which is exactly the
depth bound the specification asserts.
-/

/-- The body of `allpaths2`, abstracted over the recursive call. -/
def allpaths2Gen
    (rec : Grid TileData → String → Point → Point → List Char →
      List (Grid TileData) → List (Grid TileData))
    (grid : Grid TileData) (word : String) (start dest : Point)
    (s : List Char) (accum : List (Grid TileData)) : List (Grid TileData) :=
  match s with
  | [] => accum
  | _ :: tail =>
      (grid.neighbors start).foldl (fun acc p => rec grid word p dest tail acc) accum

/-- Fuel-indexed `allpaths`. -/
def allpathsF : Nat → Grid TileData → String → Point → Point → List Char →
    List (Grid TileData) → List (Grid TileData)
  | 0, _, _, _, _, _, accum => accum
  | Nat.succ fuel, grid, word, start, dest, s, accum =>
    if start = dest ∧ (s.length : Int) - 1 = 0 then
      accum ++ [grid]
    else if start.dist dest > (s.length : Int) - 1 then
      accum
    else
      match grid.get_ref start with
      | some (.OneWord c w) =>
          if c = s.headD ' ' ∧ w ≠ word then
            allpaths2Gen (allpathsF fuel) (grid.replace start (.TwoWords c w word))
              word start dest s accum
          else accum
      | some TileData.NoWords =>
          allpaths2Gen (allpathsF fuel) (grid.replace start (.OneWord (s.headD ' ') word))
            word start dest s accum
      | _ => accum

/-- Fuel-indexed `allpaths2`. -/
def allpaths2F (fuel : Nat) : Grid TileData → String → Point → Point → List Char →
    List (Grid TileData) → List (Grid TileData) :=
  allpaths2Gen (allpathsF fuel)

/-- Manhattan distance is nonnegative. -/
theorem Point.dist_nonneg (p q : Point) : 0 ≤ p.dist q := by
  unfold Point.dist; positivity

/-- `allpaths` on the empty suffix returns `accum` unchanged. -/
theorem allpaths_nil (grid : Grid TileData) (word : String) (start dest : Point)
    (accum : List (Grid TileData)) : allpaths grid word start dest [] accum = accum := by
  rw [allpaths]
  have h1 : ¬(start = dest ∧ ((([] : List Char).length : Int) - 1 = 0)) := by simp
  have h2 : start.dist dest > (([] : List Char).length : Int) - 1 := by
    have := Point.dist_nonneg start dest
    simp only [List.length_nil, Nat.cast_zero]
    omega
  rw [if_neg h1, if_pos h2]

/-- The neighbor loop of `allpaths2`, as a `foldl`. -/
theorem allpathsOver_eq_foldl (grid : Grid TileData) (word : String) (ps : List Point)
    (dest : Point) (s : List Char) (accum : List (Grid TileData)) :
    allpathsOver grid word ps dest s accum =
      ps.foldl (fun acc p => allpaths grid word p dest s acc) accum := by
  induction ps generalizing accum with
  | nil => rw [allpathsOver]; rfl
  | cons p rest ih => rw [allpathsOver, ih]; rfl

/-- `allpaths2Gen` applied to a pointwise-correct recursive call agrees
with `allpaths2`. -/
theorem allpaths2Gen_eq (fuel : Nat)
    (hF : ∀ (grid : Grid TileData) (word : String) (start dest : Point)
      (s : List Char) (accum : List (Grid TileData)), s.length ≤ fuel →
      allpathsF fuel grid word start dest s accum = allpaths grid word start dest s accum)
    (grid : Grid TileData) (word : String) (start dest : Point)
    (s : List Char) (accum : List (Grid TileData)) (hs : s.length ≤ fuel + 1) :
    allpaths2Gen (allpathsF fuel) grid word start dest s accum =
      allpaths2 grid word start dest s accum := by
  cases s with
  | nil => rw [allpaths2Gen, allpaths2]
  | cons c tail =>
    rw [allpaths2Gen, allpaths2, allpathsOver_eq_foldl]
    have htail : tail.length ≤ fuel := by
      have : (c :: tail).length = tail.length + 1 := rfl
      omega
    clear hs
    induction grid.neighbors start generalizing accum with
    | nil => rfl
    | cons p rest ihn =>
      simp only [List.foldl_cons, hF grid word p dest tail accum htail, ihn]

/-- With fuel at least the suffix length, `allpathsF` agrees with `allpaths`. -/
theorem allpathsF_eq : ∀ (fuel : Nat) (grid : Grid TileData) (word : String)
    (start dest : Point) (s : List Char) (accum : List (Grid TileData)),
    s.length ≤ fuel →
    allpathsF fuel grid word start dest s accum = allpaths grid word start dest s accum := by
  intro fuel
  induction fuel with
  | zero =>
    intro grid word start dest s accum hs
    have : s = [] := List.eq_nil_of_length_eq_zero (Nat.le_zero.mp hs)
    subst this
    rw [allpathsF, allpaths_nil]
  | succ fuel ih =>
    intro grid word start dest s accum hs
    rw [allpathsF, allpaths]
    by_cases h1 : start = dest ∧ (s.length : Int) - 1 = 0
    · rw [if_pos h1, if_pos h1]
    · rw [if_neg h1, if_neg h1]
      by_cases h2 : start.dist dest > (s.length : Int) - 1
      · rw [if_pos h2, if_pos h2]
      · rw [if_neg h2, if_neg h2]
        have hs' : s.length ≤ fuel + 1 := hs
        cases hg : grid.get_ref start with
        | none => rfl
        | some t =>
          cases t with
          | Fixed c => rfl
          | TwoWords c w1 w2 => rfl
          | NoWords => exact allpaths2Gen_eq fuel ih _ word start dest s accum hs'
          | OneWord c w =>
            dsimp only
            by_cases h3 : c = s.headD ' ' ∧ w ≠ word
            · rw [if_pos h3, if_pos h3]
              exact allpaths2Gen_eq fuel ih _ word start dest s accum hs'
            · rw [if_neg h3, if_neg h3]

/-- With fuel at least `s.length - 1`, `allpaths2F` agrees with `allpaths2`. -/
theorem allpaths2F_eq (fuel : Nat) (grid : Grid TileData) (word : String)
    (start dest : Point) (s : List Char) (accum : List (Grid TileData))
    (hs : s.length ≤ fuel + 1) :
    allpaths2F fuel grid word start dest s accum = allpaths2 grid word start dest s accum :=
  allpaths2Gen_eq fuel (fun g w a b t acc ht => allpathsF_eq fuel g w a b t acc ht)
    grid word start dest s accum hs

/-!
## Extension invariant of the search

`FrozenExtend word g g'` says `g'` was reached from `g` by search steps of
`word`: dimensions are unchanged and every "frozen" cell of `g` — a fixed
letter, a saturated `TwoWords` cell, or a cell already claimed by `word`
itself — is untouched in `g'`.
-/

/-- Tiles that no step of `word` can ever overwrite. -/
def tileFrozen (word : String) : TileData → Prop
  | .Fixed _ => True
  | .TwoWords _ _ _ => True
  | .OneWord _ w => w = word
  | .NoWords => False

/-- `g'` extends `g` without touching any frozen cell. -/
def FrozenExtend (word : String) (g g' : Grid TileData) : Prop :=
  g'.width = g.width ∧ g'.height = g.height ∧
  ∀ (i : Nat) (t : TileData),
    g.tiles[i]? = some t → tileFrozen word t → g'.tiles[i]? = some t

theorem FrozenExtend.rfl (word : String) (g : Grid TileData) : FrozenExtend word g g :=
  ⟨by rfl, by rfl, fun _ _ h _ => h⟩

theorem FrozenExtend.trans {word : String} {g g1 g2 : Grid TileData}
    (h1 : FrozenExtend word g g1) (h2 : FrozenExtend word g1 g2) :
    FrozenExtend word g g2 :=
  ⟨h2.1.trans h1.1, h2.2.1.trans h1.2.1,
    fun i t hi hf => h2.2.2 i t (h1.2.2 i t hi hf) hf⟩

/-- A write into a non-frozen cell is a `FrozenExtend` step. -/
theorem FrozenExtend.replace {word : String} {g : Grid TileData} {p : Point}
    {t0 : TileData} (hread : g.get_ref p = some t0) (hnf : ¬ tileFrozen word t0)
    (v : TileData) : FrozenExtend word g (g.replace p v) := by
  refine ⟨by rfl, by rfl, fun i t hi hf => ?_⟩
  show (g.tiles.set (g.index p) v)[i]? = some t
  rcases eq_or_ne (g.index p) i with he | hne
  · exfalso
    apply hnf
    have : g.tiles[g.index p]? = some t0 := by
      unfold Grid.get_ref at hread
      by_cases hv : g.is_valid p
      · rwa [if_pos hv] at hread
      · rw [if_neg hv] at hread; exact absurd hread (by simp)
    rw [he, hi] at this
    cases this
    exact hf
  · rw [List.getElem?_set_ne hne]
    exact hi

/-- `FrozenExtend` preserves point-level reads of frozen cells. -/
theorem FrozenExtend.get_ref {word : String} {g g' : Grid TileData}
    (h : FrozenExtend word g g') {p : Point} {t : TileData}
    (hread : g.get_ref p = some t) (hf : tileFrozen word t) :
    g'.get_ref p = some t := by
  obtain ⟨hw, hh, hfr⟩ := h
  have hvalid : g'.is_valid p = g.is_valid p := by
    unfold Grid.is_valid; rw [hw, hh]
  have hidx : g'.index p = g.index p := by
    unfold Grid.index; rw [hh]
  unfold Grid.get_ref at hread ⊢
  rw [hvalid, hidx]
  by_cases hv : g.is_valid p
  · rw [if_pos hv] at hread ⊢
    exact hfr _ _ hread hf
  · rw [if_neg hv] at hread
    exact absurd hread (by simp)

/-- The neighbor fold preserves the extension invariant. -/
theorem foldl_allpathsF_extend (fuel : Nat) (word : String)
    (ih : ∀ (grid : Grid TileData) (start dest : Point) (s : List Char)
      (accum : List (Grid TileData)) (g' : Grid TileData),
      g' ∈ allpathsF fuel grid word start dest s accum →
      g' ∈ accum ∨ FrozenExtend word grid g')
    (g : Grid TileData) (dest : Point) (tail : List Char) :
    ∀ (ps : List Point) (accum : List (Grid TileData)) (g' : Grid TileData),
      g' ∈ ps.foldl (fun acc p => allpathsF fuel g word p dest tail acc) accum →
      g' ∈ accum ∨ FrozenExtend word g g' := by
  intro ps
  induction ps with
  | nil => intro accum g' h; exact Or.inl h
  | cons p rest ihn =>
    intro accum g' h
    rcases ihn _ g' h with hin | hfe
    · exact ih g p dest tail accum g' hin
    · exact Or.inr hfe

/-- Every grid emitted by the (fuel-indexed) enumerator extends the input
grid without touching frozen cells. -/
theorem allpathsF_extend : ∀ (fuel : Nat) (grid : Grid TileData) (word : String)
    (start dest : Point) (s : List Char) (accum : List (Grid TileData)) (g' : Grid TileData),
    g' ∈ allpathsF fuel grid word start dest s accum →
    g' ∈ accum ∨ FrozenExtend word grid g' := by
  intro fuel
  induction fuel with
  | zero => intro grid word start dest s accum g' h; exact Or.inl h
  | succ fuel ih =>
    intro grid word start dest s accum g' hmem
    have hgen : ∀ (g0 newgrid : Grid TileData) (t0 : TileData),
        g0.get_ref start = some t0 → ¬ tileFrozen word t0 →
        newgrid = g0.replace start (match t0 with
          | .OneWord c w => .TwoWords c w word
          | _ => .OneWord (s.headD ' ') word) →
        g' ∈ allpaths2Gen (allpathsF fuel) newgrid word start dest s accum →
        g' ∈ accum ∨ FrozenExtend word g0 g' := by
      intro g0 newgrid t0 hread hnf hng hmem2
      have hstep : FrozenExtend word g0 newgrid := hng ▸ FrozenExtend.replace hread hnf _
      rcases s with _ | ⟨c, tail⟩
      · exact Or.inl hmem2
      · rw [allpaths2Gen] at hmem2
        rcases foldl_allpathsF_extend fuel word (fun g a b t acc h' hm =>
            ih g word a b t acc h' hm) newgrid dest tail _ _ _ hmem2 with hin | hfe
        · exact Or.inl hin
        · exact Or.inr (hstep.trans hfe)
    rw [allpathsF] at hmem
    split at hmem
    · rcases List.mem_append.mp hmem with hin | hg
      · exact Or.inl hin
      · exact Or.inr (List.mem_singleton.mp hg ▸ FrozenExtend.rfl word grid)
    · split at hmem
      · exact Or.inl hmem
      · split at hmem
        · rename_i c w heq
          split at hmem
          · rename_i h3
            exact hgen grid _ (.OneWord c w) heq (fun hf => h3.2 hf) rfl hmem
          · exact Or.inl hmem
        · rename_i heq
          exact hgen grid _ .NoWords heq (fun hf => hf) rfl hmem
        · exact Or.inl hmem

/-- Extension invariant for the real enumerator. -/
theorem allpaths2_extend (grid : Grid TileData) (word : String) (start dest : Point)
    (s : List Char) (accum : List (Grid TileData)) (g' : Grid TileData)
    (hmem : g' ∈ allpaths2 grid word start dest s accum) :
    g' ∈ accum ∨ FrozenExtend word grid g' := by
  rw [← allpaths2F_eq s.length grid word start dest s accum (Nat.le_succ _)] at hmem
  rw [allpaths2F] at hmem
  rcases s with _ | ⟨c, tail⟩
  · rw [allpaths2Gen] at hmem
    exact Or.inl hmem
  · rw [allpaths2Gen] at hmem
    exact foldl_allpathsF_extend (tail.length + 1) word
      (fun g a b t acc h' hm => allpathsF_extend (tail.length + 1) g word a b t acc h' hm)
      grid dest tail _ _ _ hmem

/-!
## Path soundness of the enumerator
-/

/-- The letter recorded on a tile, if any. -/
def tileChar : TileData → Option Char
  | .Fixed c => some c
  | .OneWord c _ => some c
  | .TwoWords c _ _ => some c
  | .NoWords => none

/-- The letter visible at a grid point. -/
def letterAt (g : Grid TileData) (p : Point) : Option Char :=
  match g.get_ref p with
  | some t => tileChar t
  | none => none

/-- `path` spells `w` in `g` from `S` to `E` along 4-adjacent cells. -/
def IsWordPath (g : Grid TileData) (w : List Char) (S E : Point) (path : List Point) : Prop :=
  path.length = w.length ∧ path.head? = some S ∧ path.getLast? = some E ∧
  List.Chain' (fun a b => a.dist b = 1) path ∧
  path.map (letterAt g) = w.map some

/-- Members of `neighbors p` are at Manhattan distance 1 from `p`. -/
theorem neighbors_dist {g : Grid TileData} {p q : Point}
    (h : q ∈ g.neighbors p) : p.dist q = 1 := by
  unfold Grid.neighbors at h
  have hmem := (List.mem_filter.mp h).1
  simp only [List.mem_cons, List.mem_singleton, List.not_mem_nil, or_false] at hmem
  rcases hmem with h' | h' | h' | h' <;>
    · subst h'
      unfold Point.dist Point.offset
      simp only
      omega

/-- A successful `get_ref` means the point is valid and the backing read hits. -/
theorem get_ref_eq_some {T : Type} {g : Grid T} {p : Point} {t : T}
    (h : g.get_ref p = some t) :
    g.is_valid p = true ∧ g.tiles[g.index p]? = some t := by
  unfold Grid.get_ref at h
  by_cases hv : g.is_valid p
  · rw [if_pos hv] at h
    exact ⟨hv, h⟩
  · rw [if_neg hv] at h
    exact absurd h (by simp)

/-- `replace` at `p` does not disturb a read at `q` holding a different tile. -/
theorem get_ref_replace_of_ne {g : Grid TileData} {p q : Point} {t u : TileData}
    (hp : g.get_ref p = some t) (hq : g.get_ref q = some u) (hne : t ≠ u)
    (v : TileData) : (g.replace p v).get_ref q = some u := by
  obtain ⟨hvp, hgp⟩ := get_ref_eq_some hp
  obtain ⟨hvq, hgq⟩ := get_ref_eq_some hq
  have hidx : g.index p ≠ g.index q := by
    intro he
    rw [he, hgq] at hgp
    exact hne (Option.some_inj.mp hgp).symm
  have hshape : (g.replace p v).get_ref q =
      (if g.is_valid q then (g.tiles.set (g.index p) v)[g.index q]? else none) := rfl
  rw [hshape, if_pos hvq, List.getElem?_set_ne hidx]
  exact hgq

/-- `replace` at `p` is visible at `p`. -/
theorem get_ref_replace_self {g : Grid TileData} {p : Point} {t : TileData}
    (hp : g.get_ref p = some t) (v : TileData) :
    (g.replace p v).get_ref p = some v := by
  obtain ⟨hvp, hgp⟩ := get_ref_eq_some hp
  have hlt : g.index p < g.tiles.length := by
    by_contra hge
    rw [List.getElem?_eq_none (Nat.le_of_not_lt hge)] at hgp
    exact absurd hgp (by simp)
  have hshape : (g.replace p v).get_ref p =
      (if g.is_valid p then (g.tiles.set (g.index p) v)[g.index p]? else none) := rfl
  rw [hshape, if_pos hvp]
  exact List.getElem?_set_eq_of_lt v hlt

/-- The conclusion of the path-soundness induction for the neighbor fold:
either the grid was already accumulated, or some neighbor `q` starts a
path spelling `tail` that ends at `dest`. -/
def FoldPathOut (g' : Grid TileData) (ps : List Point) (dest : Point)
    (tail : List Char) : Prop :=
  ∃ q path, q ∈ ps ∧ path.length = tail.length ∧ path.head? = some q ∧
    path.getLast? = some dest ∧ List.Chain' (fun a b => a.dist b = 1) path ∧
    path.map (letterAt g') = tail.map some

/-- Path soundness for `allpathsF`: an emitted grid carries a path from
`start` to `dest` spelling the suffix `s` (given `dest` holds the fixed
last letter of `s`). -/
theorem allpathsF_path : ∀ (fuel : Nat) (grid : Grid TileData) (word : String)
    (start dest : Point) (s : List Char) (accum : List (Grid TileData))
    (cl : Char) (g' : Grid TileData),
    grid.get_ref dest = some (.Fixed cl) →
    (s ≠ [] → s.getLast? = some cl) →
    g' ∈ allpathsF fuel grid word start dest s accum →
    g' ∈ accum ∨ ∃ path : List Point,
      path.length = s.length ∧ path.head? = some start ∧ path.getLast? = some dest ∧
      List.Chain' (fun a b => a.dist b = 1) path ∧
      path.map (letterAt g') = s.map some := by
  intro fuel
  induction fuel with
  | zero => intro grid word start dest s accum cl g' _ _ h; exact Or.inl h
  | succ fuel ih =>
    intro grid word start dest s accum cl g' hdest hcl hmem
    rw [allpathsF] at hmem
    split at hmem
    · -- base acceptance: start = dest and exactly one letter remains
      rename_i h1
      rcases List.mem_append.mp hmem with hin | hg
      · exact Or.inl hin
      · have hg' : g' = grid := List.mem_singleton.mp hg
        subst hg'
        have hlen : s.length = 1 := by omega
        obtain ⟨c, hs⟩ : ∃ c, s = [c] := by
          rcases s with _ | ⟨c, tail⟩
          · simp at hlen
          · rcases tail with _ | _
            · exact ⟨c, rfl⟩
            · simp at hlen
        subst hs
        have hc : c = cl := by
          have := hcl (by simp)
          simpa using this
        subst hc
        refine Or.inr ⟨[dest], by simp, by simp [h1.1], by simp, by simp, ?_⟩
        simp only [List.map_cons, List.map_nil, List.cons.injEq, and_true]
        unfold letterAt
        rw [hdest]
        rfl
    · split at hmem
      · exact Or.inl hmem
      · -- a step: the suffix is nonempty here
        rename_i h1 h2
        have hpos : 1 ≤ s.length := by
          have := Point.dist_nonneg start dest
          omega
        obtain ⟨c, tail, hs⟩ : ∃ c tail, s = c :: tail := by
          rcases s with _ | ⟨c, tail⟩
          · simp at hpos
          · exact ⟨c, tail, rfl⟩
        subst hs
        have hcl' : tail ≠ [] → tail.getLast? = some cl := by
          intro hne
          have := hcl (by simp)
          rcases tail with _ | ⟨d, ds⟩
          · exact absurd rfl hne
          · rwa [List.getLast?_cons_cons] at this
        -- generic treatment of the two writing arms
        have harm : ∀ (t0 : TileData) (newtile : TileData),
            grid.get_ref start = some t0 →
            t0 ≠ .Fixed cl →
            tileFrozen word newtile →
            tileChar newtile = some c →
            g' ∈ allpaths2Gen (allpathsF fuel) (grid.replace start newtile)
              word start dest (c :: tail) accum →
            g' ∈ accum ∨ ∃ path : List Point,
              path.length = (c :: tail).length ∧ path.head? = some start ∧
              path.getLast? = some dest ∧
              List.Chain' (fun a b => a.dist b = 1) path ∧
              path.map (letterAt g') = (c :: tail).map some := by
          intro t0 newtile hread hneq hfz hchar hmem2
          rw [allpaths2Gen] at hmem2
          set newgrid := grid.replace start newtile with hng
          have hdest' : newgrid.get_ref dest = some (.Fixed cl) :=
            get_ref_replace_of_ne hread hdest hneq newtile
          have hstart' : newgrid.get_ref start = some newtile :=
            get_ref_replace_self hread newtile
          -- fold-level path soundness, by induction on the neighbor list
          have hloop : ∀ (ps : List Point) (accum0 : List (Grid TileData)),
              g' ∈ ps.foldl (fun acc p => allpathsF fuel newgrid word p dest tail acc) accum0 →
              g' ∈ accum0 ∨ FoldPathOut g' ps dest tail := by
            intro ps
            induction ps with
            | nil => intro accum0 h; exact Or.inl h
            | cons p rest ihn =>
              intro accum0 h
              rcases ihn _ h with hin | ⟨q, path, hq, hrest⟩
              · rcases ih newgrid word p dest tail accum0 cl g' hdest' hcl' hin with
                  hin0 | ⟨path, hp⟩
                · exact Or.inl hin0
                · exact Or.inr ⟨p, path, List.mem_cons_self p rest, hp⟩
              · exact Or.inr ⟨q, path, List.mem_cons_of_mem p hq, hrest⟩
          rcases foldl_allpathsF_extend fuel word
              (fun g a b t acc h' hm => allpathsF_extend fuel g word a b t acc h' hm)
              newgrid dest tail _ _ _ hmem2 with hin2 | hfe
          · exact Or.inl hin2
          rcases hloop _ _ hmem2 with hin | ⟨q, path, hq, hplen, hphead, hplast, hpchain, hpmap⟩
          · exact Or.inl hin
          · -- the emitted grid still extends `newgrid`, so `start` kept its letter
            have hlet : letterAt g' start = some c := by
              unfold letterAt
              rw [hfe.get_ref hstart' hfz]
              exact hchar
            obtain ⟨q0, path0, hpath⟩ : ∃ q0 path0, path = q0 :: path0 := by
              rcases path with _ | ⟨q0, path0⟩
              · exact absurd hplast (by simp)
              · exact ⟨q0, path0, rfl⟩
            subst hpath
            have hq0 : q0 = q := by simpa using hphead
            refine Or.inr ⟨start :: q0 :: path0, ?_, by simp, ?_, ?_, ?_⟩
            · simpa using hplen
            · rw [List.getLast?_cons_cons]
              exact hplast
            · rw [List.chain'_cons]
              exact ⟨by rw [hq0]; exact neighbors_dist hq, hpchain⟩
            · simp only [List.map_cons]
              rw [hlet]
              simpa using hpmap
        split at hmem
        · rename_i c0 w heq
          split at hmem
          · rename_i h3
            refine harm (.OneWord c0 w) (.TwoWords c0 w word) heq (by simp) trivial ?_ hmem
            have : c0 = c := by simpa using h3.1
            rw [this]; rfl
          · exact Or.inl hmem
        · rename_i heq
          refine harm .NoWords (.OneWord ((c :: tail).headD ' ') word) heq (by simp) rfl ?_ hmem
          rfl
        · exact Or.inl hmem

/-- C8 helper reused below: path soundness transferred to `allpaths2`. -/
theorem allpaths2_path (grid : Grid TileData) (word : String) (S E : Point)
    (s : List Char) (accum : List (Grid TileData)) (cl : Char) (g' : Grid TileData)
    (hE : grid.get_ref E = some (.Fixed cl))
    (hcl : s ≠ [] → s.getLast? = some cl)
    (hmem : g' ∈ allpaths2 grid word S E s accum) :
    g' ∈ accum ∨ ∃ q path, q ∈ grid.neighbors S ∧ path.length = s.length - 1 ∧
      path.head? = some q ∧ path.getLast? = some E ∧
      List.Chain' (fun a b => a.dist b = 1) path ∧
      path.map (letterAt g') = s.tail.map some := by
  rw [← allpaths2F_eq s.length grid word S E s accum (Nat.le_succ _)] at hmem
  rw [allpaths2F] at hmem
  rcases s with _ | ⟨c, tail⟩
  · rw [allpaths2Gen] at hmem
    exact Or.inl hmem
  · rw [allpaths2Gen] at hmem
    have hcl' : tail ≠ [] → tail.getLast? = some cl := by
      intro hne
      have := hcl (by simp)
      rcases tail with _ | ⟨d, ds⟩
      · exact absurd rfl hne
      · rwa [List.getLast?_cons_cons] at this
    have hloop : ∀ (ps : List Point) (accum0 : List (Grid TileData)),
        g' ∈ ps.foldl (fun acc p =>
          allpathsF (c :: tail).length grid word p E tail acc) accum0 →
        g' ∈ accum0 ∨ FoldPathOut g' ps E tail := by
      intro ps
      induction ps with
      | nil => intro accum0 h; exact Or.inl h
      | cons p rest ihn =>
        intro accum0 h
        rcases ihn _ h with hin | ⟨q, path, hq, hrest⟩
        · rcases allpathsF_path (c :: tail).length grid word p E tail accum0 cl g'
              hE hcl' hin with hin0 | ⟨path, hp⟩
          · exact Or.inl hin0
          · exact Or.inr ⟨p, path, List.mem_cons_self p rest, hp⟩
        · exact Or.inr ⟨q, path, List.mem_cons_of_mem p hq, hrest⟩
    rcases hloop _ _ hmem with hin | ⟨q, path, hq, hplen, hphead, hplast, hpchain, hpmap⟩
    · exact Or.inl hin
    · exact Or.inr ⟨q, path, hq, by simpa using hplen, hphead, hplast, hpchain, hpmap⟩

/-!
## Algebra of the flatten fold
-/

theorem mergeChars_nil_left (b : List Char) : mergeChars [] b = [] := rfl

theorem mergeChars_nil_right (a : List Char) : mergeChars a [] = [] := by
  cases a <;> rfl

theorem mergeChars_cons (x y : Char) (a b : List Char) :
    mergeChars (x :: a) (y :: b) = (if x = y then x else ' ') :: mergeChars a b := rfl

theorem mergeChars_self : ∀ a : List Char, mergeChars a a = a
  | [] => rfl
  | x :: a => by rw [mergeChars_cons, if_pos rfl, mergeChars_self a]

theorem mergeChars_comm : ∀ a b : List Char, mergeChars a b = mergeChars b a
  | [], b => by rw [mergeChars_nil_left, mergeChars_nil_right]
  | a, [] => by rw [mergeChars_nil_left, mergeChars_nil_right]
  | x :: a, y :: b => by
    rw [mergeChars_cons, mergeChars_cons, mergeChars_comm a b]
    by_cases h : x = y
    · rw [if_pos h, if_pos h.symm, h]
    · rw [if_neg h, if_neg (Ne.symm h)]

theorem mergeChars_assoc : ∀ a b c : List Char,
    mergeChars (mergeChars a b) c = mergeChars a (mergeChars b c)
  | [], _, _ => rfl
  | _ :: _, [], _ => by rw [mergeChars_nil_right, mergeChars_nil_left, mergeChars_nil_right]
  | _ :: _, _ :: _, [] => by rw [mergeChars_nil_right, mergeChars_nil_right, mergeChars_nil_right]
  | x :: a, y :: b, z :: c => by
    rw [mergeChars_cons, mergeChars_cons, mergeChars_cons, mergeChars_cons,
      mergeChars_assoc a b c]
    congr 1
    split_ifs <;> simp_all

theorem mergeChars_right_comm (b a1 a2 : List Char) :
    mergeChars (mergeChars b a1) a2 = mergeChars (mergeChars b a2) a1 := by
  rw [mergeChars_assoc, mergeChars_comm a1 a2, mergeChars_assoc]

/-- Folding `mergeChars` from a seed already present in the list absorbs
an extra copy of that seed. -/
theorem foldl_mergeChars_absorb : ∀ (L : List (List Char)) (x : List Char), x ∈ L →
    ∀ y : List Char, L.foldl mergeChars (mergeChars y x) = L.foldl mergeChars y
  | [], x, hx => absurd hx (List.not_mem_nil x)
  | z :: L', x, hx => by
    intro y
    rcases List.mem_cons.mp hx with he | hmem
    · subst he
      simp only [List.foldl_cons]
      rw [mergeChars_assoc, mergeChars_self]
    · simp only [List.foldl_cons]
      rw [mergeChars_right_comm y x z]
      exact foldl_mergeChars_absorb L' x hmem (mergeChars y z)

/-- The seed of the flatten fold is irrelevant when it occurs in the list. -/
theorem foldl_mergeChars_seed_irrelevant (L : List (List Char)) (x y : List Char)
    (hx : x ∈ L) (hy : y ∈ L) : L.foldl mergeChars x = L.foldl mergeChars y := by
  have h1 := foldl_mergeChars_absorb L y hy x
  have h2 := foldl_mergeChars_absorb L x hx y
  rw [← h1, ← h2, mergeChars_comm x y]

/-- `flatten` as a fold over the projections of the whole list: the seed
(the first grid's projection) is absorbed since `mergeChars` is idempotent. -/
theorem flatten_eq_foldl (g : Grid TileData) (rest : List (Grid TileData)) :
    flatten (g :: rest) = some
      { width := g.width, height := g.height,
        tiles := ((g :: rest).map (fun x => x.tiles.map default_char)).foldl mergeChars
          (g.tiles.map default_char) } := by
  rw [flatten]
  simp only [List.map_cons, List.foldl_cons, mergeChars_self, List.foldl_map]

/-- Length of a concatenation fold of strings. -/
theorem foldl_append_length : ∀ (lines : List String) (acc : String),
    (lines.foldl (fun r s => r ++ s) acc).length = acc.length + (lines.map String.length).sum
  | [], acc => by simp
  | l :: ls, acc => by
    rw [List.foldl_cons, foldl_append_length ls (acc ++ l)]
    simp only [String.length_append, List.map_cons, List.sum_cons]
    omega

/-- Length of `String.join`. -/
theorem join_length (lines : List String) :
    (String.join lines).length = (lines.map String.length).sum := by
  show (lines.foldl (fun r s => r ++ s) "").length = (lines.map String.length).sum
  rw [foldl_append_length]
  simp

/-!
## Concrete example grids used by witnesses and counterexamples
-/

/-- 3×1 all-fixed row `a x b`. -/
def exGridAXB : Grid TileData := ⟨3, 1, [.Fixed 'a', .Fixed 'x', .Fixed 'b']⟩

/-- 3×1 row `a _ b` with an empty middle cell. -/
def exGridAB : Grid TileData := ⟨3, 1, [.Fixed 'a', .NoWords, .Fixed 'b']⟩

/-- The unique placement of "axb" on `exGridAB`. -/
def exGridAB1 : Grid TileData := ⟨3, 1, [.Fixed 'a', .OneWord 'x' "axb", .Fixed 'b']⟩

/-- 2×2 grid with fixed `a` and `b` on the main diagonal. -/
def exGrid22 : Grid TileData := ⟨2, 2, [.Fixed 'a', .NoWords, .NoWords, .Fixed 'b']⟩

/-- `exGrid22` with a saturated `TwoWords` cell at point (0,1). -/
def exGrid22TW : Grid TileData :=
  ⟨2, 2, [.Fixed 'a', .NoWords, .TwoWords 'z' "u" "v", .Fixed 'b']⟩

/-- The placement of "axb" on `exGrid22TW` (through point (1,0)). -/
def exGrid22TW1 : Grid TileData :=
  ⟨2, 2, [.Fixed 'a', .OneWord 'x' "axb", .TwoWords 'z' "u" "v", .Fixed 'b']⟩

/-- 3×2 (non-square) grid with rows `abc` / `def`. -/
def exGrid6 : Grid TileData :=
  ⟨3, 2, [.Fixed 'a', .Fixed 'b', .Fixed 'c', .Fixed 'd', .Fixed 'e', .Fixed 'f']⟩

/-- 3×3 empty grid. -/
def exGrid33 : Grid TileData := ⟨3, 3, List.replicate 9 TileData.NoWords⟩

/-!
## Claim theorems
-/

/-- C1, counterexample: at point (1,0) of the all-fixed row `a x b`, the
cell is `Fixed 'x'` and `'x'` is exactly the next required letter of the
remaining suffix `"xb"`, yet `allpaths` returns the accumulator unchanged
(the branch dies), although continuing with the cell unchanged
(`allpaths2` on the same grid) would have produced a solution; the whole
enumeration of "axb" on this grid is consequently empty. -/
theorem c1_counterexample :
    exGridAXB.get_ref ⟨1, 0⟩ = some (.Fixed 'x') ∧
    allpaths exGridAXB "axb" ⟨1, 0⟩ ⟨2, 0⟩ ['x', 'b'] [] = [] ∧
    allpaths2 exGridAXB "axb" ⟨1, 0⟩ ⟨2, 0⟩ ['x', 'b'] [] = [exGridAXB] ∧
    allpaths2 exGridAXB "axb" ⟨0, 0⟩ ⟨2, 0⟩ "axb".toList [] = [] := by
  refine ⟨by decide, ?_, ?_, ?_⟩
  · rw [← allpathsF_eq 2 exGridAXB "axb" ⟨1, 0⟩ ⟨2, 0⟩ ['x', 'b'] [] (by decide)]
    decide
  · rw [← allpaths2F_eq 2 exGridAXB "axb" ⟨1, 0⟩ ⟨2, 0⟩ ['x', 'b'] [] (by decide)]
    decide
  · rw [← allpaths2F_eq 3 exGridAXB "axb" ⟨0, 0⟩ ⟨2, 0⟩ "axb".toList [] (by decide)]
    decide

/-- C1, amended: during path enumeration, a `Fixed` cell at the current
point always kills the branch — whether or not its letter matches the next
required letter — except in the base acceptance case (current = target and
one letter remaining), where the cell is not inspected at all.  This is
because the source's match on the cell has no arm for `Fixed`, which
therefore falls into the catch-all dead-branch arm. -/
theorem c1_intermediate_fixed_kills_branch (grid : Grid TileData) (word : String)
    (start dest : Point) (s : List Char) (accum : List (Grid TileData)) (c : Char)
    (hfix : grid.get_ref start = some (.Fixed c))
    (hnb : ¬(start = dest ∧ s.length = 1)) :
    allpaths grid word start dest s accum = accum := by
  rw [allpaths]
  have h1 : ¬(start = dest ∧ (s.length : Int) - 1 = 0) := by
    intro hcon
    exact hnb ⟨hcon.1, by omega⟩
  rw [if_neg h1]
  by_cases h2 : start.dist dest > (s.length : Int) - 1
  · rw [if_pos h2]
  · rw [if_neg h2, hfix]

/-- C1, witness for the amended theorem at a concrete input. -/
theorem c1_witness :
    exGridAXB.get_ref ⟨1, 0⟩ = some (TileData.Fixed 'x') ∧
    ¬((⟨1, 0⟩ : Point) = ⟨2, 0⟩ ∧ (['x', 'b'] : List Char).length = 1) ∧
    allpaths exGridAXB "w" ⟨1, 0⟩ ⟨2, 0⟩ ['x', 'b'] [exGrid22] = [exGrid22] :=
  ⟨by decide, by decide,
    c1_intermediate_fixed_kills_branch exGridAXB "w" ⟨1, 0⟩ ⟨2, 0⟩ ['x', 'b'] [exGrid22] 'x'
      (by decide) (by decide)⟩

/-- C2, counterexample: on the 2×2 grid with anchors `a` (0,0) and `b`
(1,1), the word "ab" has zero placements (the anchors are not adjacent),
while "axb" has two.  The claim predicts that after skipping "ab" the
pipeline still attempts "axb"; the code instead returns the previous
candidate set unchanged, so the two-word run equals the input while the
one-word run does not. -/
theorem c2_counterexample :
    add_word [exGrid22] [("ab", ⟨0, 0⟩, ⟨1, 1⟩), ("axb", ⟨0, 0⟩, ⟨1, 1⟩)] = [exGrid22] ∧
    add_word [exGrid22] [("axb", ⟨0, 0⟩, ⟨1, 1⟩)] ≠ [exGrid22] := by
  have hfail : allpaths2 exGrid22 "ab" ⟨0, 0⟩ ⟨1, 1⟩ "ab".toList [] = [] := by
    rw [← allpaths2F_eq 2 exGrid22 "ab" ⟨0, 0⟩ ⟨1, 1⟩ "ab".toList [] (by decide)]
    decide
  have hok : allpaths2 exGrid22 "axb" ⟨0, 0⟩ ⟨1, 1⟩ "axb".toList [] =
      [⟨2, 2, [.Fixed 'a', .OneWord 'x' "axb", .NoWords, .Fixed 'b']⟩,
       ⟨2, 2, [.Fixed 'a', .NoWords, .OneWord 'x' "axb", .Fixed 'b']⟩] := by
    rw [← allpaths2F_eq 3 exGrid22 "axb" ⟨0, 0⟩ ⟨1, 1⟩ "axb".toList [] (by decide)]
    decide
  constructor
  · rw [add_word]
    simp only [List.foldl_cons, List.foldl_nil, hfail]
    simp
  · rw [add_word]
    simp only [List.foldl_cons, List.foldl_nil, hok]
    simp only [List.length_cons, List.length_nil, gt_iff_lt, Nat.zero_lt_succ, if_true]
    rw [add_word]
    decide

/-- C2, amended: when a word yields zero valid placements across every
grid of the current candidate set, `add_word` returns the previous
candidate set immediately as the final result of the whole pipeline: the
remaining words in the list are not attempted at all. -/
theorem c2_failed_word_aborts_pipeline (accum : List (Grid TileData)) (word : String)
    (start dest : Point) (rest : List (String × Point × Point))
    (hfail : accum.foldl (fun o g => allpaths2 g word start dest word.toList o) [] = []) :
    add_word accum ((word, start, dest) :: rest) = accum := by
  rw [add_word]
  simp only [hfail]
  simp

/-- C2, witness for the amended theorem at a concrete input. -/
theorem c2_witness :
    ([exGrid22] : List (Grid TileData)).foldl
      (fun o g => allpaths2 g "ab" ⟨0, 0⟩ ⟨1, 1⟩ "ab".toList o) [] = [] ∧
    add_word [exGrid22] [("ab", ⟨0, 0⟩, ⟨1, 1⟩), ("zz", ⟨0, 0⟩, ⟨0, 0⟩)] = [exGrid22] := by
  have hfail : ([exGrid22] : List (Grid TileData)).foldl
      (fun o g => allpaths2 g "ab" ⟨0, 0⟩ ⟨1, 1⟩ "ab".toList o) [] = [] := by
    simp only [List.foldl_cons, List.foldl_nil]
    rw [← allpaths2F_eq 2 exGrid22 "ab" ⟨0, 0⟩ ⟨1, 1⟩ "ab".toList [] (by decide)]
    decide
  exact ⟨hfail, c2_failed_word_aborts_pipeline [exGrid22] "ab" ⟨0, 0⟩ ⟨1, 1⟩
    [("zz", ⟨0, 0⟩, ⟨0, 0⟩)] hfail⟩

/-- C3, code bug: `Grid::set`/`Grid::get_ref` index the row-major backing
vector at `height*y + x` instead of `width*y + x`.  On the 3×2 grid with
rows `abc`/`def` (backing length 6 = width×height), the distinct valid
points (2,0) and (0,1) share backing index 2, so reading (0,1) yields 'c'
instead of the row-major 'd', and replacing at (2,0) changes the value
read at (0,1) — the claim's frame property fails.  The grid's own
renderer and reader lay tiles out row-major by width, so the
height-stride is a slip. -/
theorem c3_index_alias_bug :
    exGrid6.is_valid ⟨2, 0⟩ = true ∧ exGrid6.is_valid ⟨0, 1⟩ = true ∧
    (⟨2, 0⟩ : Point) ≠ (⟨0, 1⟩ : Point) ∧
    exGrid6.tiles.length = (exGrid6.width * exGrid6.height).toNat ∧
    exGrid6.index ⟨2, 0⟩ = 2 ∧ exGrid6.index ⟨0, 1⟩ = 2 ∧
    exGrid6.get_ref ⟨0, 1⟩ = some (.Fixed 'c') ∧
    exGrid6.tiles[((1 : Int) * exGrid6.width + 0).toNat]? = some (.Fixed 'd') ∧
    (exGrid6.replace ⟨2, 0⟩ (.Fixed 'z')).get_ref ⟨0, 1⟩ = some (.Fixed 'z') := by
  decide

/-- C4, counterexample: at the interior point (1,1) of a 3×3 grid,
`neighbors` returns east, west, south, north — not the claimed west,
east, north, south — because `Point::offset` subtracts its arguments. -/
theorem c4_counterexample :
    exGrid33.neighbors ⟨1, 1⟩ = [⟨2, 1⟩, ⟨0, 1⟩, ⟨1, 2⟩, ⟨1, 0⟩] ∧
    exGrid33.neighbors ⟨1, 1⟩ ≠ [⟨0, 1⟩, ⟨2, 1⟩, ⟨1, 0⟩, ⟨1, 2⟩] := by
  decide

/-- C4, amended: `neighbors(p)` returns exactly the valid orthogonally
adjacent points of `p` (Manhattan distance 1), with invalid candidates
omitted, in the order east (x+1,y), west (x-1,y), south (x,y+1),
north (x,y-1). -/
theorem c4_neighbors_east_west_south_north (g : Grid TileData) (p : Point) :
    g.neighbors p =
      [⟨p.x + 1, p.y⟩, ⟨p.x - 1, p.y⟩, ⟨p.x, p.y + 1⟩, ⟨p.x, p.y - 1⟩].filter
        (fun q => g.is_valid q) ∧
    ∀ q : Point, q ∈ g.neighbors p ↔ (g.is_valid q = true ∧ p.dist q = 1) := by
  have hlist : [p.offset (-1) 0, p.offset 1 0, p.offset 0 (-1), p.offset 0 1] =
      [⟨p.x + 1, p.y⟩, ⟨p.x - 1, p.y⟩, ⟨p.x, p.y + 1⟩, ⟨p.x, p.y - 1⟩] := by
    unfold Point.offset
    norm_num
  refine ⟨by unfold Grid.neighbors; rw [hlist], ?_⟩
  intro q
  unfold Grid.neighbors
  rw [hlist]
  constructor
  · intro hq
    refine ⟨(List.mem_filter.mp hq).2, ?_⟩
    have hm := (List.mem_filter.mp hq).1
    obtain ⟨qx, qy⟩ := q
    simp only [List.mem_cons, List.not_mem_nil, or_false, Point.mk.injEq] at hm
    unfold Point.dist
    rcases hm with ⟨h1, h2⟩ | ⟨h1, h2⟩ | ⟨h1, h2⟩ | ⟨h1, h2⟩ <;> subst h1 <;> subst h2 <;>
      simp
  · rintro ⟨hv, hd⟩
    apply List.mem_filter.mpr
    refine ⟨?_, hv⟩
    obtain ⟨qx, qy⟩ := q
    unfold Point.dist at hd
    simp only at hd
    simp only [List.mem_cons, List.not_mem_nil, or_false, Point.mk.injEq]
    omega

/-- C5, counterexample: `readgrid` does not pad short lines.  For the
lines `["ab","c"]` the backing sequence has 3 cells, not width×height=4;
for `["a","bc"]` the character at (0,1) reads as 'c' (index 2 of the
concatenation) where the claim's padded layout would place 'b' there. -/
theorem c5_counterexample :
    (readgrid ["ab", "c"]).map (fun g => g.tiles.length) = some 3 ∧
    (readgrid ["ab", "c"]).map (fun g => (g.width * g.height).toNat) = some 4 ∧
    (readgrid ["a", "bc"]).map (fun g => g.get_ref ⟨0, 1⟩) = some (some (.Fixed 'c')) := by
  decide

/-- C5, amended: for a grid file, the constructed grid has width equal to
the length of the longest line and height equal to the number of lines,
but NO padding is performed: the backing sequence is the concatenation of
the (lowercased) lines, of length equal to the SUM of the line lengths —
not width×height when line lengths differ. -/
theorem c5_readgrid_concatenates_without_padding (lines : List String) (g : Grid TileData)
    (h : readgrid lines = some g) :
    g.height = (lines.length : Int) ∧
    g.tiles.length = (lines.map String.length).sum ∧
    (∀ l ∈ lines, (l.length : Int) ≤ g.width) ∧
    (∃ l ∈ lines, (l.length : Int) = g.width) := by
  unfold readgrid at h
  cases hmax : (lines.map String.length).max? with
  | none => rw [hmax] at h; exact absurd h (by simp)
  | some longest =>
    rw [hmax] at h
    simp only [Option.some.injEq] at h
    haveI : Std.Antisymm ((· : Nat) ≤ ·) := ⟨fun h1 h2 => Nat.le_antisymm h1 h2⟩
    have hiff := (List.max?_eq_some_iff (fun a => Nat.le_refl a)
      (fun a b => max_choice a b) (fun a b c => max_le_iff)).mp hmax
    obtain ⟨hmem, hub⟩ := hiff
    refine ⟨?_, ?_, ?_, ?_⟩
    · rw [← h]
    · rw [← h]
      show (((String.join lines).toList.map Char.toLower).map _).length = _
      rw [List.length_map, List.length_map]
      show (String.join lines).length = _
      exact join_length lines
    · intro l hl
      have : l.length ≤ longest := hub _ (List.mem_map_of_mem String.length hl)
      rw [← h]
      show (l.length : Int) ≤ (longest : Int)
      exact_mod_cast this
    · obtain ⟨l, hl, hlen⟩ := List.mem_map.mp hmem
      refine ⟨l, hl, ?_⟩
      rw [← h]
      show (l.length : Int) = (longest : Int)
      exact_mod_cast hlen

/-- C5, witness for the amended theorem at a concrete input. -/
theorem c5_witness :
    readgrid ["ab", "c"] = some (⟨2, 2, [.Fixed 'a', .Fixed 'b', .Fixed 'c']⟩ : Grid TileData) ∧
    ((⟨2, 2, [.Fixed 'a', .Fixed 'b', .Fixed 'c']⟩ : Grid TileData).height =
        ((["ab", "c"] : List String).length : Int) ∧
      (⟨2, 2, [.Fixed 'a', .Fixed 'b', .Fixed 'c']⟩ : Grid TileData).tiles.length =
        ((["ab", "c"] : List String).map String.length).sum ∧
      (∀ l ∈ (["ab", "c"] : List String), (l.length : Int) ≤
        (⟨2, 2, [.Fixed 'a', .Fixed 'b', .Fixed 'c']⟩ : Grid TileData).width) ∧
      (∃ l ∈ (["ab", "c"] : List String), (l.length : Int) =
        (⟨2, 2, [.Fixed 'a', .Fixed 'b', .Fixed 'c']⟩ : Grid TileData).width)) :=
  ⟨by decide, c5_readgrid_concatenates_without_padding ["ab", "c"] _ (by decide)⟩

/-- C6: every grid emitted by the path enumerator for a word whose anchor
cells `S` and `E` hold its fixed first and last letters carries a path of
exactly `L = |word|` cells, starting at `S`, ending at `E`, with
consecutive cells 4-adjacent, whose cell letters in the emitted grid spell
the word. -/
theorem c6_emitted_grid_has_word_path (grid : Grid TileData) (word : String)
    (S E : Point) (accum : List (Grid TileData)) (g' : Grid TileData) (c0 cl : Char)
    (hhead : word.toList.head? = some c0) (hS : grid.get_ref S = some (.Fixed c0))
    (hlast : word.toList.getLast? = some cl) (hE : grid.get_ref E = some (.Fixed cl))
    (hmem : g' ∈ allpaths2 grid word S E word.toList accum) :
    g' ∈ accum ∨ ∃ path, IsWordPath g' word.toList S E path := by
  rcases allpaths2_extend grid word S E word.toList accum g' hmem with hin | hfe
  · exact Or.inl hin
  rcases allpaths2_path grid word S E word.toList accum cl g' hE (fun _ => hlast) hmem with
    hin | ⟨q, path, hq, hplen, hphead, hplast, hpchain, hpmap⟩
  · exact Or.inl hin
  obtain ⟨tail, hw⟩ : ∃ tail, word.toList = c0 :: tail := by
    cases hwl : word.toList with
    | nil => rw [hwl] at hhead; exact absurd hhead (by simp)
    | cons a t =>
      rw [hwl] at hhead
      simp only [List.head?_cons, Option.some.injEq] at hhead
      exact ⟨t, by rw [hhead]⟩
  have hletS : letterAt g' S = some c0 := by
    unfold letterAt
    rw [hfe.get_ref hS trivial]
    rfl
  obtain ⟨q0, path0, hpath⟩ : ∃ q0 path0, path = q0 :: path0 := by
    rcases path with _ | ⟨q0, path0⟩
    · exact absurd hplast (by simp)
    · exact ⟨q0, path0, rfl⟩
  subst hpath
  have hq0 : q0 = q := by simpa using hphead
  refine Or.inr ⟨S :: q0 :: path0, ?_, by simp, ?_, ?_, ?_⟩
  · have : (q0 :: path0).length = word.toList.length - 1 := hplen
    rw [hw] at this ⊢
    simp only [List.length_cons] at this ⊢
    omega
  · rw [List.getLast?_cons_cons]
    exact hplast
  · rw [List.chain'_cons]
    exact ⟨by rw [hq0]; exact neighbors_dist hq, hpchain⟩
  · simp only [List.map_cons]
    rw [hletS]
    have h5 : (q0 :: path0).map (letterAt g') = word.toList.tail.map some := hpmap
    rw [hw] at h5
    simp only [List.tail_cons, List.map_cons] at h5
    rw [hw]
    simp only [List.map_cons]
    rw [h5]

/-- C6, witness: the unique placement of "axb" on the row `a _ b`. -/
theorem c6_witness :
    ("axb".toList.head? = some 'a') ∧
    exGridAB.get_ref ⟨0, 0⟩ = some (TileData.Fixed 'a') ∧
    ("axb".toList.getLast? = some 'b') ∧
    exGridAB.get_ref ⟨2, 0⟩ = some (TileData.Fixed 'b') ∧
    exGridAB1 ∈ allpaths2 exGridAB "axb" ⟨0, 0⟩ ⟨2, 0⟩ "axb".toList [] ∧
    (exGridAB1 ∈ ([] : List (Grid TileData)) ∨
      ∃ path, IsWordPath exGridAB1 "axb".toList ⟨0, 0⟩ ⟨2, 0⟩ path) := by
  have hmem : exGridAB1 ∈ allpaths2 exGridAB "axb" ⟨0, 0⟩ ⟨2, 0⟩ "axb".toList [] := by
    rw [← allpaths2F_eq 3 exGridAB "axb" ⟨0, 0⟩ ⟨2, 0⟩ "axb".toList [] (by decide)]
    decide
  exact ⟨by decide, by decide, by decide, by decide, hmem,
    c6_emitted_grid_has_word_path exGridAB "axb" ⟨0, 0⟩ ⟨2, 0⟩ [] exGridAB1 'a' 'b'
      (by decide) (by decide) (by decide) (by decide) hmem⟩

/-- C7: `flatten` is order-independent on candidate sets (lists of grids
sharing one width and height): permuting the list does not change the
result; and on a singleton list it returns exactly the default character
projection of that grid. -/
theorem c7_flatten_order_independent :
    (∀ (l1 l2 : List (Grid TileData)) (w h : Int), l1.Perm l2 →
      (∀ g ∈ l1, g.width = w ∧ g.height = h) → flatten l1 = flatten l2) ∧
    (∀ g : Grid TileData, flatten [g] = some (g.map default_char)) := by
  constructor
  · intro l1 l2 w h hperm hdims
    rcases l1 with _ | ⟨g1, r1⟩
    · rw [List.nil_perm.mp hperm]
    rcases l2 with _ | ⟨g2, r2⟩
    · exact (List.cons_ne_nil g1 r1 hperm.eq_nil).elim
    haveI : RightCommutative mergeChars := ⟨mergeChars_right_comm⟩
    rw [flatten_eq_foldl, flatten_eq_foldl]
    have hg2mem : g2 ∈ g1 :: r1 := hperm.symm.subset (List.mem_cons_self g2 r2)
    have hd1 := hdims g1 (List.mem_cons_self g1 r1)
    have hd2 := hdims g2 hg2mem
    have hmapperm : ((g1 :: r1).map (fun x => x.tiles.map default_char)).Perm
        ((g2 :: r2).map (fun x => x.tiles.map default_char)) := hperm.map _
    have hfold := hmapperm.symm.foldl_eq (f := mergeChars) (g2.tiles.map default_char)
    have hseed := foldl_mergeChars_seed_irrelevant
        ((g1 :: r1).map (fun x => x.tiles.map default_char))
        (g1.tiles.map default_char) (g2.tiles.map default_char)
        (List.mem_map_of_mem _ (List.mem_cons_self g1 r1))
        (List.mem_map_of_mem _ hg2mem)
    simp only [Option.some.injEq, Grid.mk.injEq]
    refine ⟨hd1.1.trans hd2.1.symm, hd1.2.trans hd2.2.symm, ?_⟩
    rw [hseed, ← hfold]
  · intro g
    rfl

/-- C7, witness: swapping a two-grid candidate set leaves `flatten`
unchanged. -/
theorem c7_witness :
    ([exGridAB1, exGridAB] : List (Grid TileData)).Perm [exGridAB, exGridAB1] ∧
    (∀ g ∈ ([exGridAB1, exGridAB] : List (Grid TileData)), g.width = 3 ∧ g.height = 1) ∧
    flatten [exGridAB1, exGridAB] = flatten [exGridAB, exGridAB1] := by
  have hperm : ([exGridAB1, exGridAB] : List (Grid TileData)).Perm [exGridAB, exGridAB1] :=
    List.Perm.swap exGridAB exGridAB1 []
  exact ⟨hperm, by decide,
    c7_flatten_order_independent.1 [exGridAB1, exGridAB] [exGridAB, exGridAB1] 3 1
      hperm (by decide)⟩

/-- C8: once a cell holds `TwoWords`, no grid emitted by any further
enumeration step (for any word) changes it: every emitted grid (not
already in the accumulator) still reads the same `TwoWords` value at that
point, so at most the two recorded word identities ever claim the cell. -/
theorem c8_twoWords_cell_permanent (grid : Grid TileData) (word : String)
    (start dest p : Point) (s : List Char) (accum : List (Grid TileData))
    (g' : Grid TileData) (c : Char) (w1 w2 : String)
    (hcell : grid.get_ref p = some (.TwoWords c w1 w2))
    (hmem : g' ∈ allpaths2 grid word start dest s accum) :
    g' ∈ accum ∨ g'.get_ref p = some (.TwoWords c w1 w2) :=
  (allpaths2_extend grid word start dest s accum g' hmem).imp id
    (fun hfe => hfe.get_ref hcell trivial)

/-- C8, witness: placing "axb" around a saturated cell leaves it intact. -/
theorem c8_witness :
    exGrid22TW.get_ref ⟨0, 1⟩ = some (TileData.TwoWords 'z' "u" "v") ∧
    exGrid22TW1 ∈ allpaths2 exGrid22TW "axb" ⟨0, 0⟩ ⟨1, 1⟩ "axb".toList [] ∧
    (exGrid22TW1 ∈ ([] : List (Grid TileData)) ∨
      exGrid22TW1.get_ref ⟨0, 1⟩ = some (TileData.TwoWords 'z' "u" "v")) := by
  have hmem : exGrid22TW1 ∈ allpaths2 exGrid22TW "axb" ⟨0, 0⟩ ⟨1, 1⟩ "axb".toList [] := by
    rw [← allpaths2F_eq 3 exGrid22TW "axb" ⟨0, 0⟩ ⟨1, 1⟩ "axb".toList [] (by decide)]
    decide
  exact ⟨by decide, hmem,
    c8_twoWords_cell_permanent exGrid22TW "axb" ⟨0, 0⟩ ⟨1, 1⟩ ⟨0, 1⟩ "axb".toList []
      exGrid22TW1 'z' "u" "v" (by decide) hmem⟩

/-- C9: the path enumerator terminates on every input, with recursion
depth bounded by the length of the remaining suffix (hence by the word
length at the top-level call): running the fuel-limited enumerator with
fuel equal to the suffix length already computes the full result. -/
theorem c9_recursion_depth_bounded :
    ∀ (grid : Grid TileData) (word : String) (start dest : Point) (s : List Char)
      (accum : List (Grid TileData)),
      allpaths grid word start dest s accum = allpathsF s.length grid word start dest s accum ∧
      allpaths2 grid word start dest s accum = allpaths2F s.length grid word start dest s accum :=
  fun grid word start dest s accum =>
    ⟨(allpathsF_eq s.length grid word start dest s accum (Nat.le_refl _)).symm,
     (allpaths2F_eq s.length grid word start dest s accum (Nat.le_succ _)).symm⟩

/-- `flatten` succeeds on every non-empty list. -/
theorem flatten_isSome_of_ne_nil {l : List (Grid TileData)} (h : l ≠ []) :
    (flatten l).isSome := by
  rcases l with _ | ⟨g, r⟩
  · exact absurd rfl h
  · rw [flatten]
    rfl

/-- C10: on a non-empty input candidate set, `add_word` returns a
non-empty candidate set (it adopts the new set only when non-empty and
otherwise keeps the previous one), so `flatten`'s extraction of the first
grid never runs on an empty collection when driven from `main`. -/
theorem c10_add_word_preserves_nonempty :
    ∀ (wordpt : List (String × Point × Point)) (accum : List (Grid TileData)),
      accum ≠ [] →
      add_word accum wordpt ≠ [] ∧ (flatten (add_word accum wordpt)).isSome := by
  intro wordpt
  induction wordpt with
  | nil =>
    intro accum h
    rw [add_word]
    exact ⟨h, flatten_isSome_of_ne_nil h⟩
  | cons wp rest ih =>
    intro accum h
    obtain ⟨word, start, dest⟩ := wp
    simp only [add_word]
    by_cases hl : (accum.foldl (fun o g => allpaths2 g word start dest word.toList o) []).length > 0
    · rw [if_pos hl]
      refine ih _ ?_
      intro he
      rw [he] at hl
      simp at hl
    · rw [if_neg hl]
      exact ⟨h, flatten_isSome_of_ne_nil h⟩

/-- C10, witness at a concrete input. -/
theorem c10_witness :
    ([exGrid22] : List (Grid TileData)) ≠ [] ∧
    add_word [exGrid22] [("ab", ⟨0, 0⟩, ⟨1, 1⟩)] ≠ [] ∧
    (flatten (add_word [exGrid22] [("ab", ⟨0, 0⟩, ⟨1, 1⟩)])).isSome := by
  have h := c10_add_word_preserves_nonempty [("ab", ⟨0, 0⟩, ⟨1, 1⟩)] [exGrid22] (by decide)
  exact ⟨by decide, h.1, h.2⟩

end Waystations
